import Mathlib

/-!
Verification model of the LangViz-studio trace backend.

The repository persists workflow traces (Graph / Step / Edge rows, see
prisma/schema.prisma) through three Next.js route handlers:
  * POST /api/graph/start  — create a Graph row,
  * POST /api/graph/ingest — snapshot-replace the Step and Edge rows of a graph,
  * GET  /api/graph/load   — reassemble the stored rows into the wire shape.
This file shallowly embeds the data model, the Prisma-level store operations
(including the foreign-key constraint from the migrations and the
`@default(uuid())` on Graph.id), the three handlers, and the JSON
serialization boundary (`JSON.stringify` / `JSON.parse`), and proves the
spec-level properties about them.
-/

/-- JSON values, the payload universe of the ingest and load handlers.
`num` is modelled over `Int` (the traced payloads carry integral indices;
no claim depends on non-integral numbers). -/
inductive Json where
  | null : Json
  | bool (b : Bool) : Json
  | num (n : Int) : Json
  | str (s : String) : Json
  | arr (elems : List Json) : Json
  | obj (fields : List (String × Json)) : Json

/-- JavaScript truthiness on JSON values: `null`, `false`, `0` and `""` are
falsy; arrays and objects are always truthy. -/
def Json.isTruthy : Json → Bool
  | .null => false
  | .bool b => b
  | .num n => n != 0
  | .str s => s != ""
  | .arr _ => true
  | .obj _ => true

/-- `v || {}` on an optional JSON value (`call.input || {}` in the ingest
handler): an absent or falsy value is replaced by the empty object. -/
def jsOrEmptyObj : Option Json → Json
  | some j => if j.isTruthy then j else Json.obj []
  | none => Json.obj []

/-- `v || d` on an optional string (`body.name || "Untitled"`). -/
def jsOrString (v : Option String) (d : String) : String :=
  match v with
  | some s => if s = "" then d else s
  | none => d

/-- `v || 0` on an optional integer (`ed.used_count || 0`). -/
def jsOrInt (v : Option Int) : Int :=
  match v with
  | some n => if n = 0 then 0 else n
  | none => 0

/-- `v || undefined` on an optional string (`e.conditionKey || undefined`
in the load handler): `null` and `""` both become `undefined`. -/
def jsOrUndefined : Option String → Option String
  | some s => if s = "" then none else some s
  | none => none

/-! ### The serialization codec

`JSON.stringify` / `JSON.parse` are modelled by an executable codec on
`Json`: a total printer `Json.stringify` and a partial parser `Json.parse`
(`none` models a thrown `SyntaxError`).  The concrete text format is a
self-delimiting tagged encoding (strings length-prefixed, numbers
terminated by a semicolon) rather than surface JSON syntax; all that the
handlers rely on is that the codec round-trips, that parsing can fail on
other strings, and that the literal text `"\x7b\x7d"` parses to the empty
object. -/

/-- The character of a decimal digit. -/
def digitChar (d : Nat) : Char :=
  if d = 0 then '0' else if d = 1 then '1' else if d = 2 then '2'
  else if d = 3 then '3' else if d = 4 then '4' else if d = 5 then '5'
  else if d = 6 then '6' else if d = 7 then '7' else if d = 8 then '8'
  else '9'

/-- Read a decimal digit back from a character. -/
def charToDigit (c : Char) : Option Nat :=
  if c = '0' then some 0 else if c = '1' then some 1
  else if c = '2' then some 2 else if c = '3' then some 3
  else if c = '4' then some 4 else if c = '5' then some 5
  else if c = '6' then some 6 else if c = '7' then some 7
  else if c = '8' then some 8 else if c = '9' then some 9
  else none

/-- Fuelled worker producing the decimal digit characters of `n`,
most significant first. -/
def natCharsAux : Nat → Nat → List Char
  | 0, _ => []
  | fuel + 1, n =>
      if n < 10 then [digitChar n]
      else natCharsAux fuel (n / 10) ++ [digitChar (n % 10)]

/-- Decimal digit characters of a natural number, most significant first. -/
def natChars (n : Nat) : List Char := natCharsAux (n + 1) n

/-- Fuelled left-to-right accumulation of decimal digits. -/
def charsToNatAux : Nat → List Char → Option Nat
  | acc, [] => some acc
  | acc, c :: cs =>
      match charToDigit c with
      | some d => charsToNatAux (acc * 10 + d) cs
      | none => none

/-- Parse a digit-character list (most significant first) back to a `Nat`. -/
def charsToNat (cs : List Char) : Option Nat := charsToNatAux 0 cs

/-- Characters of an integer: optional minus sign followed by digits. -/
def intChars (i : Int) : List Char :=
  if i < 0 then '-' :: natChars i.natAbs else natChars i.toNat

/-- Parse an integer character list: a leading `'-'` negates. -/
def charsToInt (cs : List Char) : Option Int :=
  match cs with
  | c :: rest =>
      if c = '-' then (charsToNat rest).map (fun n => -(Int.ofNat n))
      else (charsToNat (c :: rest)).map (fun n => Int.ofNat n)
  | [] => (charsToNat []).map (fun n => Int.ofNat n)

mutual
/-- Encoding of one JSON value. -/
def Json.encode : Json → List Char
  | .null => ['n']
  | .bool true => ['t']
  | .bool false => ['f']
  | .num i => 'i' :: (intChars i ++ [';'])
  | .str s => 's' :: (natChars s.length ++ ':' :: s.data)
  | .arr xs => '[' :: (Json.encodeList xs ++ [']'])
  | .obj kvs => '{' :: (Json.encodeFields kvs ++ ['}'])

/-- Encoding of the elements of a JSON array, concatenated. -/
def Json.encodeList : List Json → List Char
  | [] => []
  | j :: js => Json.encode j ++ Json.encodeList js

/-- Encoding of the fields of a JSON object, concatenated. -/
def Json.encodeFields : List (String × Json) → List Char
  | [] => []
  | (k, v) :: kvs => 'k' :: (natChars k.length ++ ':' :: k.data ++ Json.encode v) ++ Json.encodeFields kvs
end

/-- `JSON.stringify`. -/
def Json.stringify (j : Json) : String := ⟨j.encode⟩

/-- Split a character list at the first occurrence of the terminator `t`,
returning the characters before it and the remainder after it. -/
def readUntil (t : Char) : List Char → Option (List Char × List Char)
  | [] => none
  | c :: cs =>
      if c = t then some ([], cs)
      else (readUntil t cs).map (fun p => (c :: p.1, p.2))

/-- Read exactly `n` characters, returning them and the remainder. -/
def readN : Nat → List Char → Option (List Char × List Char)
  | 0, cs => some ([], cs)
  | _ + 1, [] => none
  | n + 1, c :: cs => (readN n cs).map (fun p => (c :: p.1, p.2))

/-- Read a length-prefixed string: digits, `':'`, then that many characters. -/
def readLenStr (cs : List Char) : Option (String × List Char) :=
  match readUntil ':' cs with
  | some (ds, rest) =>
      match charsToNat ds with
      | some n =>
          match readN n rest with
          | some (sdata, rest2) => some (⟨sdata⟩, rest2)
          | none => none
      | none => none
  | none => none

mutual
/-- Fuelled decoder for one JSON value; returns the value and the
unconsumed remainder. -/
def decodeVal : Nat → List Char → Option (Json × List Char)
  | 0, _ => none
  | _ + 1, [] => none
  | fuel + 1, c :: cs =>
      if c = 'n' then some (.null, cs)
      else if c = 't' then some (.bool true, cs)
      else if c = 'f' then some (.bool false, cs)
      else if c = 'i' then
        match readUntil ';' cs with
        | some (ds, rest) =>
            match charsToInt ds with
            | some i => some (.num i, rest)
            | none => none
        | none => none
      else if c = 's' then
        match readLenStr cs with
        | some (s, rest) => some (.str s, rest)
        | none => none
      else if c = '[' then
        match decodeArr fuel cs with
        | some (js, rest) => some (.arr js, rest)
        | none => none
      else if c = '{' then
        match decodeObj fuel cs with
        | some (kvs, rest) => some (.obj kvs, rest)
        | none => none
      else none

/-- Fuelled decoder for array elements up to the closing `']'`. -/
def decodeArr : Nat → List Char → Option (List Json × List Char)
  | 0, _ => none
  | _ + 1, [] => none
  | fuel + 1, c :: cs =>
      if c = ']' then some ([], cs)
      else
        match decodeVal fuel (c :: cs) with
        | some (j, rest) =>
            match decodeArr fuel rest with
            | some (js, rest2) => some (j :: js, rest2)
            | none => none
        | none => none

/-- Fuelled decoder for object fields up to the closing `'}'`. -/
def decodeObj : Nat → List Char → Option (List (String × Json) × List Char)
  | 0, _ => none
  | _ + 1, [] => none
  | fuel + 1, c :: cs =>
      if c = '}' then some ([], cs)
      else if c = 'k' then
        match readLenStr cs with
        | some (k, rest) =>
            match decodeVal fuel rest with
            | some (v, rest2) =>
                match decodeObj fuel rest2 with
                | some (kvs, rest3) => some ((k, v) :: kvs, rest3)
                | none => none
            | none => none
        | none => none
      else none
end

/-- `JSON.parse`: decode the whole string, requiring no trailing input;
`none` models a thrown `SyntaxError`. -/
def Json.parse (s : String) : Option Json :=
  match decodeVal (s.data.length + 1) s.data with
  | some (j, []) => some j
  | _ => none

/-! ### Round-trip correctness of the codec -/

theorem digitChar_ne (d : Nat) :
    digitChar d ≠ ';' ∧ digitChar d ≠ ':' ∧ digitChar d ≠ '-' := by
  unfold digitChar
  split_ifs <;> exact ⟨by decide, by decide, by decide⟩

theorem charToDigit_digitChar (d : Nat) (h : d < 10) :
    charToDigit (digitChar d) = some d := by
  interval_cases d <;> rfl

theorem readUntil_eq (t : Char) (pre rest : List Char) (h : ∀ c ∈ pre, c ≠ t) :
    readUntil t (pre ++ t :: rest) = some (pre, rest) := by
  induction pre with
  | nil => simp [readUntil]
  | cons c cs ih =>
      have hc : c ≠ t := h c (by simp)
      have ih' := ih (fun c' hc' => h c' (by simp [hc']))
      simp [readUntil, hc, ih']

theorem readN_eq (l rest : List Char) : readN l.length (l ++ rest) = some (l, rest) := by
  induction l with
  | nil => simp [readN]
  | cons c cs ih => simp [readN, ih]

theorem natCharsAux_digits (fuel : Nat) :
    ∀ n c, c ∈ natCharsAux fuel n → ∃ d, d < 10 ∧ c = digitChar d := by
  induction fuel with
  | zero => intro n c hc; simp [natCharsAux] at hc
  | succ fuel ih =>
      intro n c hc
      by_cases h : n < 10
      · simp only [natCharsAux, h, if_true, List.mem_singleton] at hc
        exact ⟨n, h, hc⟩
      · simp only [natCharsAux, h, if_false, List.mem_append, List.mem_singleton] at hc
        rcases hc with hc | hc
        · exact ih _ c hc
        · exact ⟨n % 10, Nat.mod_lt _ (by omega), hc⟩

theorem charsToNatAux_append (xs ys : List Char) (acc : Nat) :
    charsToNatAux acc (xs ++ ys) =
      match charsToNatAux acc xs with
      | some a => charsToNatAux a ys
      | none => none := by
  induction xs generalizing acc with
  | nil => simp [charsToNatAux]
  | cons c cs ih =>
      simp only [List.cons_append, charsToNatAux]
      cases charToDigit c with
      | none => simp
      | some d => simp [ih]

theorem charsToNatAux_natCharsAux (fuel : Nat) :
    ∀ n acc, n < fuel →
      charsToNatAux acc (natCharsAux fuel n) =
        some (acc * 10 ^ (natCharsAux fuel n).length + n) := by
  induction fuel with
  | zero => intro n acc h; omega
  | succ fuel ih =>
      intro n acc h
      by_cases hlt : n < 10
      · simp only [natCharsAux, hlt, if_true, charsToNatAux,
          charToDigit_digitChar n hlt, List.length_singleton, pow_one]
      · have hdiv : n / 10 < fuel := by
          have := Nat.div_lt_self (by omega : 0 < n) (by omega : 1 < 10)
          omega
        have hmod : n % 10 < 10 := Nat.mod_lt _ (by omega)
        simp only [natCharsAux, hlt, if_false]
        rw [charsToNatAux_append, ih (n / 10) acc hdiv]
        simp only [charsToNatAux, charToDigit_digitChar _ hmod,
          List.length_append, List.length_singleton]
        have harith :
            (acc * 10 ^ (natCharsAux fuel (n / 10)).length + n / 10) * 10 + n % 10 =
              acc * (10 ^ (natCharsAux fuel (n / 10)).length * 10) +
                (n / 10 * 10 + n % 10) := by ring
        rw [harith, pow_succ]
        congr 1
        omega

theorem charsToNat_natChars (n : Nat) : charsToNat (natChars n) = some n := by
  unfold charsToNat natChars
  rw [charsToNatAux_natCharsAux (n + 1) n 0 (by omega)]
  simp

theorem natChars_head (n : Nat) :
    ∃ d rest, d < 10 ∧ natChars n = digitChar d :: rest := by
  suffices h : ∀ fuel n, ∃ d rest, d < 10 ∧ natCharsAux (fuel + 1) n = digitChar d :: rest by
    exact h n n
  intro fuel
  induction fuel with
  | zero =>
      intro n
      by_cases hlt : n < 10
      · exact ⟨n, [], hlt, by simp [natCharsAux, hlt]⟩
      · exact ⟨n % 10, [], Nat.mod_lt _ (by omega), by simp [natCharsAux, hlt]⟩
  | succ fuel ih =>
      intro n
      by_cases hlt : n < 10
      · exact ⟨n, [], hlt, by simp [natCharsAux, hlt]⟩
      · obtain ⟨d, rest, hd, hrep⟩ := ih (n / 10)
        refine ⟨d, rest ++ [digitChar (n % 10)], hd, ?_⟩
        rw [natCharsAux, if_neg hlt, hrep]
        simp

theorem natChars_digits (n : Nat) : ∀ c ∈ natChars n, ∃ d, d < 10 ∧ c = digitChar d :=
  fun c hc => natCharsAux_digits (n + 1) n c hc

theorem intChars_ne_semi (i : Int) : ∀ c ∈ intChars i, c ≠ ';' := by
  intro c hc
  unfold intChars at hc
  by_cases hneg : i < 0
  · rw [if_pos hneg, List.mem_cons] at hc
    rcases hc with hc | hc
    · subst hc; decide
    · obtain ⟨d, _, hd⟩ := natChars_digits _ c hc
      exact hd ▸ (digitChar_ne d).1
  · rw [if_neg hneg] at hc
    obtain ⟨d, _, hd⟩ := natChars_digits _ c hc
    exact hd ▸ (digitChar_ne d).1

theorem natChars_ne_colon (n : Nat) : ∀ c ∈ natChars n, c ≠ ':' := by
  intro c hc
  obtain ⟨d, _, hd⟩ := natChars_digits _ c hc
  exact hd ▸ (digitChar_ne d).2.1

theorem charsToInt_intChars (i : Int) : charsToInt (intChars i) = some i := by
  by_cases hneg : i < 0
  · rw [intChars, if_pos hneg]
    have h1 : charsToInt ('-' :: natChars i.natAbs) =
        (charsToNat (natChars i.natAbs)).map (fun n => -(Int.ofNat n)) := rfl
    have h2 : -(Int.ofNat i.natAbs) = i := by rw [Int.ofNat_eq_coe]; omega
    rw [h1, charsToNat_natChars, Option.map_some', h2]
  · obtain ⟨d, rest, hd, hrep⟩ := natChars_head i.toNat
    rw [intChars, if_neg hneg, hrep]
    have h1 : charsToInt (digitChar d :: rest) =
        (charsToNat (digitChar d :: rest)).map (fun n => Int.ofNat n) := by
      rw [charsToInt, if_neg (digitChar_ne d).2.2]
    have h2 : Int.ofNat i.toNat = i := by rw [Int.ofNat_eq_coe]; omega
    rw [h1, ← hrep, charsToNat_natChars, Option.map_some', h2]

theorem readLenStr_encode (s : String) (rest : List Char) :
    readLenStr (natChars s.length ++ ':' :: (s.data ++ rest)) = some (s, rest) := by
  have h2 : charsToNat (natChars s.length) = some s.length := charsToNat_natChars _
  have h3 : readN s.length (s.data ++ rest) = some (s.data, rest) := readN_eq s.data rest
  unfold readLenStr
  rw [readUntil_eq ':' _ _ (natChars_ne_colon s.length)]
  simp only [h2, h3]

mutual
/-- Decoding depth of one JSON value (fuel needed by `decodeVal`). -/
def Json.sizeV : Json → Nat
  | .arr xs => 1 + Json.sizeArr xs
  | .obj kvs => 1 + Json.sizeObj kvs
  | _ => 0

/-- Decoding depth of an array element list. -/
def Json.sizeArr : List Json → Nat
  | [] => 0
  | j :: js => 1 + Json.sizeV j + Json.sizeArr js

/-- Decoding depth of an object field list. -/
def Json.sizeObj : List (String × Json) → Nat
  | [] => 0
  | (_, v) :: kvs => 1 + Json.sizeV v + Json.sizeObj kvs
end

theorem encode_head (j : Json) :
    ∃ c cs, j.encode = c :: cs ∧ c ≠ ']' ∧ c ≠ '}' := by
  cases j with
  | null => exact ⟨'n', _, rfl, by decide, by decide⟩
  | bool b =>
      cases b with
      | true => exact ⟨'t', _, rfl, by decide, by decide⟩
      | false => exact ⟨'f', _, rfl, by decide, by decide⟩
  | num i => exact ⟨'i', _, rfl, by decide, by decide⟩
  | str s => exact ⟨'s', _, rfl, by decide, by decide⟩
  | arr xs => exact ⟨'[', _, rfl, by decide, by decide⟩
  | obj kvs => exact ⟨'{', _, rfl, by decide, by decide⟩

theorem decode_encode (fuel : Nat) :
    (∀ (j : Json) (rest : List Char), j.sizeV < fuel →
        decodeVal fuel (j.encode ++ rest) = some (j, rest)) ∧
    (∀ (xs : List Json) (rest : List Char), Json.sizeArr xs < fuel →
        decodeArr fuel (Json.encodeList xs ++ ']' :: rest) = some (xs, rest)) ∧
    (∀ (kvs : List (String × Json)) (rest : List Char), Json.sizeObj kvs < fuel →
        decodeObj fuel (Json.encodeFields kvs ++ '}' :: rest) = some (kvs, rest)) := by
  induction fuel with
  | zero =>
      refine ⟨fun j rest h => absurd h (by omega),
              fun xs rest h => absurd h (by omega),
              fun kvs rest h => absurd h (by omega)⟩
  | succ fuel ih =>
      obtain ⟨ihV, ihA, ihO⟩ := ih
      refine ⟨?_, ?_, ?_⟩
      · intro j rest hsz
        cases j with
        | null => simp [Json.encode, decodeVal]
        | bool b => cases b <;> simp [Json.encode, decodeVal]
        | num i =>
            have h1 : readUntil ';' (intChars i ++ ';' :: rest) = some (intChars i, rest) :=
              readUntil_eq ';' _ _ (intChars_ne_semi i)
            simp [Json.encode, decodeVal, h1, charsToInt_intChars]
        | str s =>
            have h1 : readLenStr (natChars s.length ++ ':' :: (s.data ++ rest)) = some (s, rest) :=
              readLenStr_encode s rest
            simp [Json.encode, decodeVal, h1]
        | arr xs =>
            have hsz' : Json.sizeArr xs < fuel := by
              simp only [Json.sizeV] at hsz; omega
            have h1 := ihA xs rest hsz'
            simp [Json.encode, decodeVal, h1]
        | obj kvs =>
            have hsz' : Json.sizeObj kvs < fuel := by
              simp only [Json.sizeV] at hsz; omega
            have h1 := ihO kvs rest hsz'
            simp [Json.encode, decodeVal, h1]
      · intro xs rest hsz
        cases xs with
        | nil => simp [Json.encodeList, decodeArr]
        | cons j js =>
            have hj : j.sizeV < fuel := by
              simp only [Json.sizeArr] at hsz; omega
            have hjs : Json.sizeArr js < fuel := by
              simp only [Json.sizeArr] at hsz; omega
            obtain ⟨c, cs, hrep, hne1, _⟩ := encode_head j
            have hlist :
                Json.encodeList (j :: js) ++ ']' :: rest =
                  c :: (cs ++ (Json.encodeList js ++ ']' :: rest)) := by
              simp [Json.encodeList, hrep]
            rw [hlist, decodeArr, if_neg hne1]
            have hval : decodeVal fuel (c :: (cs ++ (Json.encodeList js ++ ']' :: rest))) =
                some (j, Json.encodeList js ++ ']' :: rest) := by
              have := ihV j (Json.encodeList js ++ ']' :: rest) hj
              rw [hrep] at this
              simpa using this
            have harr := ihA js rest hjs
            rw [hval]
            simp [harr]
      · intro kvs rest hsz
        cases kvs with
        | nil => simp [Json.encodeFields, decodeObj]
        | cons kv kvs' =>
            obtain ⟨k, v⟩ := kv
            have hv : v.sizeV < fuel := by
              simp only [Json.sizeObj] at hsz; omega
            have hkvs : Json.sizeObj kvs' < fuel := by
              simp only [Json.sizeObj] at hsz; omega
            have hlist :
                Json.encodeFields ((k, v) :: kvs') ++ '}' :: rest =
                  'k' :: (natChars k.length ++ ':' ::
                    (k.data ++ (v.encode ++ (Json.encodeFields kvs' ++ '}' :: rest)))) := by
              simp [Json.encodeFields]
            have hval := ihV v (Json.encodeFields kvs' ++ '}' :: rest) hv
            have hobj := ihO kvs' rest hkvs
            rw [hlist, decodeObj, if_neg (by decide : ('k' : Char) ≠ '}'),
              if_pos rfl, readLenStr_encode]
            simp [hval, hobj]



mutual
theorem Json.sizeV_lt_length : ∀ j : Json, j.sizeV < j.encode.length
  | .null => by simp [Json.sizeV, Json.encode]
  | .bool b => by cases b <;> simp [Json.sizeV, Json.encode]
  | .num i => by simp [Json.sizeV, Json.encode]
  | .str s => by simp [Json.sizeV, Json.encode]
  | .arr xs => by
      have h := Json.sizeArr_le_length xs
      simp only [Json.sizeV, Json.encode, List.length_cons, List.length_append,
        List.length_singleton]
      omega
  | .obj kvs => by
      have h := Json.sizeObj_le_length kvs
      simp only [Json.sizeV, Json.encode, List.length_cons, List.length_append,
        List.length_singleton]
      omega

theorem Json.sizeArr_le_length : ∀ xs : List Json,
    Json.sizeArr xs ≤ (Json.encodeList xs).length
  | [] => by simp [Json.sizeArr, Json.encodeList]
  | j :: js => by
      have h1 := Json.sizeV_lt_length j
      have h2 := Json.sizeArr_le_length js
      simp only [Json.sizeArr, Json.encodeList, List.length_append]
      omega

theorem Json.sizeObj_le_length : ∀ kvs : List (String × Json),
    Json.sizeObj kvs ≤ (Json.encodeFields kvs).length
  | [] => by simp [Json.sizeObj, Json.encodeFields]
  | (k, v) :: kvs => by
      have h1 := Json.sizeV_lt_length v
      have h2 := Json.sizeObj_le_length kvs
      simp only [Json.sizeObj, Json.encodeFields, List.length_append,
        List.length_cons]
      omega
end

/-- The codec round-trips: `JSON.parse (JSON.stringify j)` recovers `j`. -/
theorem Json.parse_stringify (j : Json) : Json.parse (Json.stringify j) = some j := by
  have hlt : j.sizeV < j.encode.length + 1 := Nat.lt_succ_of_lt (Json.sizeV_lt_length j)
  have hdec := (decode_encode (j.encode.length + 1)).1 j [] hlt
  rw [List.append_nil] at hdec
  show (match decodeVal (j.encode.length + 1) j.encode with
    | some (jj, []) => some jj
    | _ => none) = some j
  rw [hdec]

/-- A stringified JSON value is never the empty string. -/
theorem Json.stringify_ne_empty (j : Json) : j.stringify ≠ "" := by
  obtain ⟨c, cs, hrep, -, -⟩ := encode_head j
  intro h
  have hdata : j.encode = [] := congrArg String.data h
  rw [hrep] at hdata
  exact List.cons_ne_nil _ _ hdata

/-- `JSON.parse(s || "\x7b\x7d")`, the deserialization step of the load
handler: the empty stored text is replaced by the literal `"\x7b\x7d"`
before parsing. -/
def jsParseOrEmpty (s : String) : Option Json :=
  Json.parse (if s = "" then "\x7b\x7d" else s)

theorem jsParseOrEmpty_empty : jsParseOrEmpty "" = some (Json.obj []) := rfl

theorem jsParseOrEmpty_stringify (j : Json) :
    jsParseOrEmpty (Json.stringify j) = some j := by
  rw [jsParseOrEmpty, if_neg (Json.stringify_ne_empty j), Json.parse_stringify]

/-! ### The relational store (prisma/schema.prisma)

Rows mirror the Prisma models; `id` surrogate keys are modelled by
counters in the store state.  `findMany` returns rows in insertion
(primary-key) order, and the foreign-key constraints of the migrations
(`Step.graphId → Graph.id`, `Edge.graphId → Graph.id`) make `create`
fail when the referenced Graph row is absent. -/

/-- A `Graph` row: externally supplied string id, display name, creation
time (never consulted by the verified handlers). -/
structure GraphRow where
  id : String
  name : String
  createdAt : Nat
deriving DecidableEq

/-- A `Step` row. -/
structure StepRow where
  id : Nat
  graphId : String
  nodeName : String
  stepIndex : Int
  inputJson : String
  outputJson : String
deriving DecidableEq

/-- An `Edge` row.  `conditionKey` and `usedCount` are nullable. -/
structure EdgeRow where
  id : Nat
  graphId : String
  sourceNode : String
  targetNode : String
  conditionKey : Option String
  usedCount : Option Int
deriving DecidableEq

/-- The whole store: the three tables plus the auto-increment counters
for Step and Edge ids, a counter backing `@default(uuid())` on Graph.id,
and the clock read by `@default(now())`. -/
structure DB where
  graphs : List GraphRow
  steps : List StepRow
  edges : List EdgeRow
  nextStepId : Nat
  nextEdgeId : Nat
  nextUuid : Nat
  now : Nat
deriving DecidableEq

/-- Whether a Graph row with this id exists (the foreign-key check). -/
def DB.graphExists (db : DB) (g : String) : Bool :=
  db.graphs.any (fun r => r.id == g)

/-- The store-generated uuid used by `@default(uuid())` when the caller
supplies no id. -/
def DB.genUuid (db : DB) : String :=
  "uuid-" ++ toString db.nextUuid

/-- `prisma.graph.create({data: {id, name}})`: an absent id is replaced by
the store-generated default uuid; a duplicate primary key makes the
call fail (`none`). -/
def DB.graphCreate (db : DB) (id? : Option String) (name : String) :
    Option (DB × String) :=
  let newId := match id? with
    | some s => s
    | none => db.genUuid
  if db.graphs.any (fun r => r.id == newId) then none
  else
    some ({ db with
              graphs := db.graphs ++ [⟨newId, name, db.now⟩],
              nextUuid := db.nextUuid + (if id?.isNone then 1 else 0) },
          newId)

/-- `prisma.step.create`: fails (`none`) when the referenced Graph row
does not exist (foreign-key violation); otherwise appends a row with the
next auto-increment id. -/
def DB.stepCreate (db : DB) (g nodeName : String) (stepIndex : Int)
    (inputJson outputJson : String) : Option DB :=
  if db.graphExists g then
    some { db with
             steps := db.steps ++
               [⟨db.nextStepId, g, nodeName, stepIndex, inputJson, outputJson⟩],
             nextStepId := db.nextStepId + 1 }
  else none

/-- `prisma.edge.create`: same foreign-key discipline as `stepCreate`. -/
def DB.edgeCreate (db : DB) (g sourceNode targetNode : String)
    (conditionKey : Option String) (usedCount : Int) : Option DB :=
  if db.graphExists g then
    some { db with
             edges := db.edges ++
               [⟨db.nextEdgeId, g, sourceNode, targetNode, conditionKey, some usedCount⟩],
             nextEdgeId := db.nextEdgeId + 1 }
  else none

/-- `prisma.step.deleteMany({where: {graphId}})`. -/
def DB.stepDeleteMany (db : DB) (g : String) : DB :=
  { db with steps := db.steps.filter (fun s => !(s.graphId == g)) }

/-- `prisma.edge.deleteMany({where: {graphId}})`. -/
def DB.edgeDeleteMany (db : DB) (g : String) : DB :=
  { db with edges := db.edges.filter (fun e => !(e.graphId == g)) }

/-- `prisma.step.findMany({where: {graphId}})`, in insertion order. -/
def DB.stepFindMany (db : DB) (g : String) : List StepRow :=
  db.steps.filter (fun s => s.graphId == g)

/-- `prisma.edge.findMany({where: {graphId}})`, in insertion order. -/
def DB.edgeFindMany (db : DB) (g : String) : List EdgeRow :=
  db.edges.filter (fun e => e.graphId == g)

/-! ### Request and response shapes -/

/-- One entry of a node's call list in the ingest body:
`{stepIndex, input, output}` (`input` / `output` may be absent). -/
structure CallIn where
  stepIndex : Int
  input : Option Json
  output : Option Json

/-- One entry of the edge list in the ingest body:
`{source, target, conditionKey, used_count}` (the last two may be absent). -/
structure EdgeIn where
  source : String
  target : String
  conditionKey : Option String
  used_count : Option Int
deriving DecidableEq

/-- The ingest request body.  `nodes` is the body's JSON object
`Record<nodeName, CallIn[]>`, modelled as an association list in the
object's key enumeration order; `nodes` and `edges` may be absent. -/
structure IngestBody where
  graphId : Option String
  nodes : Option (List (String × List CallIn))
  edges : Option (List EdgeIn)

/-- The create-graph request body (`{graphId, name?}`). -/
structure CreateBody where
  graphId : Option String
  name : Option String
deriving DecidableEq

/-- Response of the create handler: `{graphId}` on success, or the
generic `{error}` body with HTTP status 500. -/
inductive CreateResp where
  | ok (graphId : String)
  | err (status : Nat)
deriving DecidableEq

/-- Response of the ingest handler: `{status: "ok"}` or `{error}` 500. -/
inductive IngestResp where
  | ok
  | err (status : Nat)
deriving DecidableEq

/-- One call entry in the load response (`{stepIndex, input, output}`
with deserialized payloads). -/
structure CallOut where
  stepIndex : Int
  input : Json
  output : Json

/-- One edge entry in the load response.  `conditionKey = none` models
the field being ABSENT from the JSON object (the handler writes
`e.conditionKey || undefined`, and `undefined` fields are dropped by
JSON serialization); `used_count = none` models the JSON value `null`,
which IS emitted. -/
structure EdgeOut where
  source : String
  target : String
  conditionKey : Option String
  used_count : Option Int
deriving DecidableEq

/-- Response of the load handler: `{nodes, edges}` on success (`nodes` is
the response JSON object in key insertion order), status 400 when
graphId is missing from the query string, status 500 when a stored
payload fails to parse. -/
inductive LoadResp where
  | ok (nodes : List (String × List CallOut)) (edges : List EdgeOut)
  | err (status : Nat)

/-! ### The route handlers -/

/-- POST `/api/graph/start`: reads `body.graphId` (no validation) and
`body.name || "Untitled"`, creates the Graph row, answers `{graphId}`;
any store failure is caught and answered as a 500. -/
def graphStartPOST (db : DB) (body : CreateBody) : DB × CreateResp :=
  let name := jsOrString body.name "Untitled"
  match db.graphCreate body.graphId name with
  | some (db2, gid) => (db2, .ok gid)
  | none => (db, .err 500)

/-- The inner loop of the ingest handler over one node's call list:
one `step.create` per call, serializing `call.input || {}` and
`call.output || {}`.  Stops at the first store failure, keeping the rows
inserted so far (there is no transaction). -/
def insertCalls (g nodeName : String) : DB → List CallIn → DB × Bool
  | db, [] => (db, true)
  | db, call :: rest =>
      match db.stepCreate g nodeName call.stepIndex
          (Json.stringify (jsOrEmptyObj call.input))
          (Json.stringify (jsOrEmptyObj call.output)) with
      | some db2 => insertCalls g nodeName db2 rest
      | none => (db, false)

/-- The outer loop of the ingest handler over `Object.keys(nodesObj)`. -/
def insertNodes (g : String) : DB → List (String × List CallIn) → DB × Bool
  | db, [] => (db, true)
  | db, (nodeName, calls) :: rest =>
      match insertCalls g nodeName db calls with
      | (db2, true) => insertNodes g db2 rest
      | (db2, false) => (db2, false)

/-- The ingest handler's loop over `body.edges || []`: one `edge.create`
per entry with `usedCount: ed.used_count || 0`. -/
def insertEdges (g : String) : DB → List EdgeIn → DB × Bool
  | db, [] => (db, true)
  | db, ed :: rest =>
      match db.edgeCreate g ed.source ed.target ed.conditionKey
          (jsOrInt ed.used_count) with
      | some db2 => insertEdges g db2 rest
      | none => (db, false)

/-- POST `/api/graph/ingest`: throws (caught as a 500) when
`body.graphId` is falsy; otherwise deletes all Step and Edge rows of the
graph, re-inserts the submitted snapshot (`body.nodes || {}`,
`body.edges || []`), and answers `{status: "ok"}`.  A store failure
mid-loop leaves the partial state behind (delete and inserts are not
wrapped in a transaction). -/
def graphIngestPOST (db : DB) (body : IngestBody) : DB × IngestResp :=
  match body.graphId with
  | none => (db, .err 500)
  | some g =>
      if g = "" then (db, .err 500)
      else
        let db1 := (db.stepDeleteMany g).edgeDeleteMany g
        match insertNodes g db1 (body.nodes.getD []) with
        | (db2, true) =>
            match insertEdges g db2 (body.edges.getD []) with
            | (db3, true) => (db3, .ok)
            | (db3, false) => (db3, .err 500)
        | (db2, false) => (db2, .err 500)

/-- Deserialization of one Step row in the load handler:
`JSON.parse(s.inputJson || "\x7b\x7d")` and the same for the output;
`none` models the thrown `SyntaxError`. -/
def parseStep (s : StepRow) : Option CallOut :=
  match jsParseOrEmpty s.inputJson, jsParseOrEmpty s.outputJson with
  | some i, some o => some ⟨s.stepIndex, i, o⟩
  | _, _ => none

/-- One iteration of the load handler's grouping loop:
`if (!nodes[s.nodeName]) nodes[s.nodeName] = []; nodes[s.nodeName].push(call)`. -/
def groupInsert (nodes : List (String × List CallOut)) (name : String)
    (c : CallOut) : List (String × List CallOut) :=
  if nodes.any (fun p => p.1 == name) then
    nodes.map (fun p => if p.1 == name then (p.1, p.2 ++ [c]) else p)
  else nodes ++ [(name, [c])]

/-- The load handler's grouping loop over the fetched Step rows; fails
(`none`) as soon as one stored payload does not parse. -/
def buildNodes : List (String × List CallOut) → List StepRow →
    Option (List (String × List CallOut))
  | acc, [] => some acc
  | acc, s :: rest =>
      match parseStep s with
      | some c => buildNodes (groupInsert acc s.nodeName c) rest
      | none => none

/-- Projection of one Edge row into the wire shape
(`conditionKey: e.conditionKey || undefined`, `used_count: e.usedCount`). -/
def edgeProj (e : EdgeRow) : EdgeOut :=
  ⟨e.sourceNode, e.targetNode, jsOrUndefined e.conditionKey, e.usedCount⟩

/-- GET `/api/graph/load?graphId=…`: 400 when the query parameter is
absent or empty, otherwise fetches the graph's Step and Edge rows,
groups the steps by nodeName in encounter order, deserializes the
payloads, and projects the edges. -/
def graphLoadGET (db : DB) (graphId : Option String) : LoadResp :=
  match graphId with
  | none => .err 400
  | some g =>
      if g = "" then .err 400
      else
        match buildNodes [] (db.stepFindMany g) with
        | some nodes => .ok nodes ((db.edgeFindMany g).map edgeProj)
        | none => .err 500

/-! ### Characterizing the ingest loops -/

/-- What one submitted call becomes after the serialize/deserialize
round-trip performed by ingest + load: absent or falsy payloads default
to the empty object, everything else is preserved. -/
def projCall (c : CallIn) : CallOut :=
  ⟨c.stepIndex, jsOrEmptyObj c.input, jsOrEmptyObj c.output⟩

/-- The Step rows created for one node's call list, ids from `startId`. -/
def mkStepRows (g nodeName : String) (startId : Nat) : List CallIn → List StepRow
  | [] => []
  | c :: cs =>
      ⟨startId, g, nodeName, c.stepIndex,
        Json.stringify (jsOrEmptyObj c.input),
        Json.stringify (jsOrEmptyObj c.output)⟩ :: mkStepRows g nodeName (startId + 1) cs

/-- Total number of calls in a submitted nodes object. -/
def countCalls : List (String × List CallIn) → Nat
  | [] => 0
  | (_, cs) :: rest => cs.length + countCalls rest

/-- The Step rows created for the whole nodes object, in iteration order. -/
def mkAllStepRows (g : String) (startId : Nat) : List (String × List CallIn) → List StepRow
  | [] => []
  | (n, cs) :: rest =>
      mkStepRows g n startId cs ++ mkAllStepRows g (startId + cs.length) rest

/-- The Edge row created for one submitted edge. -/
def mkEdgeRow (g : String) (id : Nat) (e : EdgeIn) : EdgeRow :=
  ⟨id, g, e.source, e.target, e.conditionKey, some (jsOrInt e.used_count)⟩

/-- The Edge rows created for the submitted edge list. -/
def mkEdgeRows (g : String) (startId : Nat) : List EdgeIn → List EdgeRow
  | [] => []
  | e :: es => mkEdgeRow g startId e :: mkEdgeRows g (startId + 1) es

/-- What one submitted edge becomes in a later load response. -/
def expectedEdge (e : EdgeIn) : EdgeOut :=
  ⟨e.source, e.target, jsOrUndefined e.conditionKey, some (jsOrInt e.used_count)⟩

theorem insertCalls_eq (g n : String) (cs : List CallIn) :
    ∀ db : DB, db.graphExists g = true →
      insertCalls g n db cs =
        ({ db with
             steps := db.steps ++ mkStepRows g n db.nextStepId cs,
             nextStepId := db.nextStepId + cs.length }, true) := by
  induction cs with
  | nil => intro db _; simp [insertCalls, mkStepRows]
  | cons c cs ih =>
      intro db hex
      have key := ih
        ⟨db.graphs,
         db.steps ++ [⟨db.nextStepId, g, n, c.stepIndex,
           Json.stringify (jsOrEmptyObj c.input),
           Json.stringify (jsOrEmptyObj c.output)⟩],
         db.edges, db.nextStepId + 1, db.nextEdgeId, db.nextUuid, db.now⟩ hex
      rw [insertCalls, DB.stepCreate, if_pos hex]
      change insertCalls g n _ cs = _
      rw [key]
      simp [mkStepRows, List.append_assoc]
      omega

theorem insertNodes_eq (g : String) (nodes : List (String × List CallIn)) :
    ∀ db : DB, db.graphExists g = true →
      insertNodes g db nodes =
        ({ db with
             steps := db.steps ++ mkAllStepRows g db.nextStepId nodes,
             nextStepId := db.nextStepId + countCalls nodes }, true) := by
  induction nodes with
  | nil => intro db _; simp [insertNodes, mkAllStepRows, countCalls]
  | cons p rest ih =>
      intro db hex
      obtain ⟨n, cs⟩ := p
      have key := ih
        ⟨db.graphs, db.steps ++ mkStepRows g n db.nextStepId cs, db.edges,
         db.nextStepId + cs.length, db.nextEdgeId, db.nextUuid, db.now⟩ hex
      rw [insertNodes, insertCalls_eq g n cs db hex]
      change insertNodes g _ rest = _
      rw [key]
      simp [mkAllStepRows, countCalls, List.append_assoc]
      omega

theorem insertEdges_eq (g : String) (es : List EdgeIn) :
    ∀ db : DB, db.graphExists g = true →
      insertEdges g db es =
        ({ db with
             edges := db.edges ++ mkEdgeRows g db.nextEdgeId es,
             nextEdgeId := db.nextEdgeId + es.length }, true) := by
  induction es with
  | nil => intro db _; simp [insertEdges, mkEdgeRows]
  | cons e es ih =>
      intro db hex
      have key := ih
        ⟨db.graphs, db.steps,
         db.edges ++ [⟨db.nextEdgeId, g, e.source, e.target, e.conditionKey,
           some (jsOrInt e.used_count)⟩],
         db.nextStepId, db.nextEdgeId + 1, db.nextUuid, db.now⟩ hex
      rw [insertEdges, DB.edgeCreate, if_pos hex]
      change insertEdges g _ es = _
      rw [key]
      simp [mkEdgeRows, mkEdgeRow, List.append_assoc]
      omega

theorem graphIngestPOST_eq (db : DB) (g : String)
    (nodes : List (String × List CallIn)) (es : List EdgeIn)
    (hg : g ≠ "") (hex : db.graphExists g = true) :
    graphIngestPOST db ⟨some g, some nodes, some es⟩ =
      ({ db with
           steps := db.steps.filter (fun s => !(s.graphId == g)) ++
             mkAllStepRows g db.nextStepId nodes,
           edges := db.edges.filter (fun e => !(e.graphId == g)) ++
             mkEdgeRows g db.nextEdgeId es,
           nextStepId := db.nextStepId + countCalls nodes,
           nextEdgeId := db.nextEdgeId + es.length }, .ok) := by
  have h1 := insertNodes_eq g nodes
    ⟨db.graphs, db.steps.filter (fun s => !(s.graphId == g)),
     db.edges.filter (fun e => !(e.graphId == g)),
     db.nextStepId, db.nextEdgeId, db.nextUuid, db.now⟩ hex
  have h2 := insertEdges_eq g es
    ⟨db.graphs,
     db.steps.filter (fun s => !(s.graphId == g)) ++ mkAllStepRows g db.nextStepId nodes,
     db.edges.filter (fun e => !(e.graphId == g)),
     db.nextStepId + countCalls nodes, db.nextEdgeId, db.nextUuid, db.now⟩ hex
  simp only [graphIngestPOST, DB.stepDeleteMany, DB.edgeDeleteMany,
    Option.getD, if_neg hg, h1, h2]

theorem filter_not_filter {α : Type} (p : α → Bool) (l : List α) :
    (l.filter (fun a => !(p a))).filter p = [] := by
  induction l with
  | nil => rfl
  | cons a l ih => by_cases h : p a <;> simp [List.filter_cons, h, ih]

theorem mkStepRows_graphId (g n : String) (cs : List CallIn) :
    ∀ i, ∀ s ∈ mkStepRows g n i cs, s.graphId = g := by
  induction cs with
  | nil => intro i s hs; simp [mkStepRows] at hs
  | cons c cs ih =>
      intro i s hs
      rw [mkStepRows, List.mem_cons] at hs
      rcases hs with hs | hs
      · rw [hs]
      · exact ih _ s hs

theorem mkAllStepRows_graphId (g : String) (nodes : List (String × List CallIn)) :
    ∀ i, ∀ s ∈ mkAllStepRows g i nodes, s.graphId = g := by
  induction nodes with
  | nil => intro i s hs; simp [mkAllStepRows] at hs
  | cons p rest ih =>
      intro i s hs
      obtain ⟨n, cs⟩ := p
      rw [mkAllStepRows, List.mem_append] at hs
      rcases hs with hs | hs
      · exact mkStepRows_graphId g n cs i s hs
      · exact ih _ s hs

theorem mkEdgeRows_graphId (g : String) (es : List EdgeIn) :
    ∀ i, ∀ e ∈ mkEdgeRows g i es, e.graphId = g := by
  induction es with
  | nil => intro i e he; simp [mkEdgeRows] at he
  | cons x xs ih =>
      intro i e he
      rw [mkEdgeRows, List.mem_cons] at he
      rcases he with he | he
      · rw [he]; rfl
      · exact ih _ e he

theorem filter_mkAllStepRows (g : String) (i : Nat)
    (nodes : List (String × List CallIn)) :
    (mkAllStepRows g i nodes).filter (fun s => s.graphId == g) =
      mkAllStepRows g i nodes := by
  rw [List.filter_eq_self]
  intro s hs
  simp [mkAllStepRows_graphId g nodes i s hs]

theorem filter_mkEdgeRows (g : String) (i : Nat) (es : List EdgeIn) :
    (mkEdgeRows g i es).filter (fun e => e.graphId == g) = mkEdgeRows g i es := by
  rw [List.filter_eq_self]
  intro e he
  simp [mkEdgeRows_graphId g es i e he]

/-- The Step rows a load sees right after a successful ingest are exactly
the freshly inserted ones, in insertion order. -/
theorem stepFindMany_after_ingest (db : DB) (g : String)
    (nodes : List (String × List CallIn)) (es : List EdgeIn)
    (hg : g ≠ "") (hex : db.graphExists g = true) :
    (graphIngestPOST db ⟨some g, some nodes, some es⟩).1.stepFindMany g =
      mkAllStepRows g db.nextStepId nodes := by
  rw [graphIngestPOST_eq db g nodes es hg hex]
  show ((db.steps.filter (fun s => !(s.graphId == g)) ++
      mkAllStepRows g db.nextStepId nodes).filter (fun s => s.graphId == g)) = _
  rw [List.filter_append, filter_not_filter, filter_mkAllStepRows, List.nil_append]

/-- The Edge rows a load sees right after a successful ingest. -/
theorem edgeFindMany_after_ingest (db : DB) (g : String)
    (nodes : List (String × List CallIn)) (es : List EdgeIn)
    (hg : g ≠ "") (hex : db.graphExists g = true) :
    (graphIngestPOST db ⟨some g, some nodes, some es⟩).1.edgeFindMany g =
      mkEdgeRows g db.nextEdgeId es := by
  rw [graphIngestPOST_eq db g nodes es hg hex]
  show ((db.edges.filter (fun e => !(e.graphId == g)) ++
      mkEdgeRows g db.nextEdgeId es).filter (fun e => e.graphId == g)) = _
  rw [List.filter_append, filter_not_filter, filter_mkEdgeRows, List.nil_append]

/-! ### Characterizing the load handler after an ingest -/

/-- Specification-level replay of the grouping loop over one node's
submitted call list. -/
def foldCalls (n : String) (acc : List (String × List CallOut)) :
    List CallIn → List (String × List CallOut)
  | [] => acc
  | c :: cs => foldCalls n (groupInsert acc n (projCall c)) cs

/-- Specification-level replay of the grouping loop over the whole
submitted nodes object. -/
def foldNodes (acc : List (String × List CallOut)) :
    List (String × List CallIn) → List (String × List CallOut)
  | [] => acc
  | (n, cs) :: rest => foldNodes (foldCalls n acc cs) rest

theorem parseStep_mkStepRow (g n : String) (i : Nat) (c : CallIn) :
    parseStep ⟨i, g, n, c.stepIndex,
        Json.stringify (jsOrEmptyObj c.input),
        Json.stringify (jsOrEmptyObj c.output)⟩ = some (projCall c) := by
  simp [parseStep, jsParseOrEmpty_stringify, projCall]

theorem buildNodes_append (xs ys : List StepRow) :
    ∀ acc, buildNodes acc (xs ++ ys) =
      match buildNodes acc xs with
      | some acc2 => buildNodes acc2 ys
      | none => none := by
  induction xs with
  | nil => intro acc; simp [buildNodes]
  | cons s xs ih =>
      intro acc
      rw [List.cons_append, buildNodes, buildNodes]
      cases parseStep s with
      | none => rfl
      | some c => simp only [ih]

theorem buildNodes_mkStepRows (g n : String) (cs : List CallIn) :
    ∀ acc i, buildNodes acc (mkStepRows g n i cs) = some (foldCalls n acc cs) := by
  induction cs with
  | nil => intro acc i; simp [mkStepRows, buildNodes, foldCalls]
  | cons c cs ih =>
      intro acc i
      rw [mkStepRows, buildNodes, parseStep_mkStepRow, foldCalls]
      exact ih _ _

theorem buildNodes_mkAllStepRows (g : String) (nodes : List (String × List CallIn)) :
    ∀ acc i, buildNodes acc (mkAllStepRows g i nodes) = some (foldNodes acc nodes) := by
  induction nodes with
  | nil => intro acc i; simp [mkAllStepRows, buildNodes, foldNodes]
  | cons p rest ih =>
      intro acc i
      obtain ⟨n, cs⟩ := p
      rw [mkAllStepRows, buildNodes_append, buildNodes_mkStepRows]
      rw [foldNodes]
      exact ih _ _

theorem mkEdgeRows_map_edgeProj (g : String) (es : List EdgeIn) :
    ∀ i, (mkEdgeRows g i es).map edgeProj = es.map expectedEdge := by
  induction es with
  | nil => intro i; rfl
  | cons e es ih =>
      intro i
      rw [mkEdgeRows, List.map_cons, List.map_cons, ih]
      rfl

/-- The central lemma: a successful ingest of `(g, nodes, es)` followed
immediately by a load of `g` answers exactly the grouped projection of
the submitted snapshot — independently of what the store previously held
for any graph. -/
theorem graphLoadGET_after_ingest (db : DB) (g : String)
    (nodes : List (String × List CallIn)) (es : List EdgeIn)
    (hg : g ≠ "") (hex : db.graphExists g = true) :
    graphLoadGET (graphIngestPOST db ⟨some g, some nodes, some es⟩).1 (some g) =
      .ok (foldNodes [] nodes) (es.map expectedEdge) := by
  have hs := stepFindMany_after_ingest db g nodes es hg hex
  have he := edgeFindMany_after_ingest db g nodes es hg hex
  have hb := buildNodes_mkAllStepRows g nodes [] db.nextStepId
  simp only [graphLoadGET, if_neg hg, hs, he, hb, mkEdgeRows_map_edgeProj]

/-- A successful ingest acknowledges with `{status: "ok"}`. -/
theorem graphIngestPOST_ok (db : DB) (g : String)
    (nodes : List (String × List CallIn)) (es : List EdgeIn)
    (hg : g ≠ "") (hex : db.graphExists g = true) :
    (graphIngestPOST db ⟨some g, some nodes, some es⟩).2 = .ok := by
  rw [graphIngestPOST_eq db g nodes es hg hex]

/-! ### The grouped result, in clean form -/

theorem groupInsert_fresh (acc : List (String × List CallOut)) (n : String)
    (c : CallOut) (h : ∀ p ∈ acc, p.1 ≠ n) :
    groupInsert acc n c = acc ++ [(n, [c])] := by
  have hany : acc.any (fun p => p.1 == n) = false := by
    rw [List.any_eq_false]
    intro p hp
    simpa using h p hp
  simp [groupInsert, hany]

theorem map_groupUpd_fresh (pre : List (String × List CallOut)) (n : String)
    (c : CallOut) (h : ∀ p ∈ pre, p.1 ≠ n) :
    pre.map (fun p => if p.1 == n then (p.1, p.2 ++ [c]) else p) = pre := by
  induction pre with
  | nil => rfl
  | cons p ps ih =>
      have hp : p.1 ≠ n := h p (by simp)
      rw [List.map_cons, if_neg (by simpa using hp),
        ih (fun q hq => h q (by simp [hq]))]

theorem groupInsert_present_last (pre : List (String × List CallOut))
    (n : String) (l : List CallOut) (c : CallOut) (h : ∀ p ∈ pre, p.1 ≠ n) :
    groupInsert (pre ++ [(n, l)]) n c = pre ++ [(n, l ++ [c])] := by
  have hany : (pre ++ [(n, l)]).any (fun p => p.1 == n) = true := by
    rw [List.any_eq_true]
    exact ⟨(n, l), by simp, by simp⟩
  rw [groupInsert, if_pos hany, List.map_append, map_groupUpd_fresh pre n c h]
  simp

theorem foldCalls_present (n : String) (cs : List CallIn) :
    ∀ (pre : List (String × List CallOut)) (l : List CallOut),
      (∀ p ∈ pre, p.1 ≠ n) →
      foldCalls n (pre ++ [(n, l)]) cs = pre ++ [(n, l ++ cs.map projCall)] := by
  induction cs with
  | nil => intro pre l _; simp [foldCalls]
  | cons c cs ih =>
      intro pre l h
      rw [foldCalls, groupInsert_present_last pre n l (projCall c) h, ih pre _ h]
      simp

theorem foldCalls_fresh (n : String) (acc : List (String × List CallOut))
    (cs : List CallIn) (h : ∀ p ∈ acc, p.1 ≠ n) (hne : cs ≠ []) :
    foldCalls n acc cs = acc ++ [(n, cs.map projCall)] := by
  cases cs with
  | nil => exact absurd rfl hne
  | cons c cs =>
      rw [foldCalls, groupInsert_fresh acc n (projCall c) h,
        foldCalls_present n cs acc [projCall c] h]
      simp

/-- When the submitted nodes object has pairwise distinct keys and no
empty call list, the load handler's grouping returns it verbatim: same
keys in the same order, each call list in submitted order with
round-tripped payloads. -/
theorem foldNodes_clean (nodes : List (String × List CallIn)) :
    ∀ acc, (∀ p ∈ nodes, p.2 ≠ []) →
      (nodes.map Prod.fst).Nodup →
      (∀ p ∈ acc, ∀ q ∈ nodes, p.1 ≠ q.1) →
      foldNodes acc nodes =
        acc ++ nodes.map (fun p => (p.1, p.2.map projCall)) := by
  induction nodes with
  | nil => intro acc _ _ _; simp [foldNodes]
  | cons p rest ih =>
      intro acc hne hnodup hdisj
      obtain ⟨n, cs⟩ := p
      have hfresh : ∀ q ∈ acc, q.1 ≠ n :=
        fun q hq => hdisj q hq (n, cs) (by simp)
      have hcs : cs ≠ [] := hne (n, cs) (by simp)
      rw [foldNodes, foldCalls_fresh n acc cs hfresh hcs]
      have hnotin : n ∉ rest.map Prod.fst := by
        rw [List.map_cons, List.nodup_cons] at hnodup
        exact hnodup.1
      have hdisj2 : ∀ p2 ∈ acc ++ [(n, cs.map projCall)], ∀ q ∈ rest, p2.1 ≠ q.1 := by
        intro p2 hp2 q hq
        rw [List.mem_append, List.mem_singleton] at hp2
        rcases hp2 with hp2 | hp2
        · exact hdisj p2 hp2 q (by simp [hq])
        · rw [hp2]
          show n ≠ q.1
          intro hcontra
          exact hnotin (by rw [hcontra]; exact List.mem_map_of_mem Prod.fst hq)
      have hnodup2 : (rest.map Prod.fst).Nodup := by
        rw [List.map_cons, List.nodup_cons] at hnodup
        exact hnodup.2
      rw [ih _ (fun q hq => hne q (by simp [hq])) hnodup2 hdisj2]
      simp

/-! ### Membership facts about the grouped result -/

/-- All (nodeName, call) pairs contained in a grouped nodes mapping. -/
def nodePairs : List (String × List CallOut) → List (String × CallOut)
  | [] => []
  | p :: ps => p.2.map (fun c => (p.1, c)) ++ nodePairs ps

theorem nodePairs_append (xs ys : List (String × List CallOut)) :
    nodePairs (xs ++ ys) = nodePairs xs ++ nodePairs ys := by
  induction xs with
  | nil => rfl
  | cons p ps ih => simp [nodePairs, ih]

theorem nodePairs_groupUpd (acc : List (String × List CallOut)) (n : String)
    (c : CallOut) :
    ∀ q ∈ nodePairs (acc.map (fun p => if p.1 == n then (p.1, p.2 ++ [c]) else p)),
      q ∈ nodePairs acc ∨ q = (n, c) := by
  induction acc with
  | nil => intro q hq; simp [nodePairs] at hq
  | cons p ps ih =>
      intro q hq
      rw [List.map_cons] at hq
      by_cases hp : p.1 = n
      · rw [if_pos (by simpa using hp)] at hq
        rw [nodePairs, List.mem_append] at hq
        rcases hq with hq | hq
        · rw [List.map_append, List.mem_append] at hq
          rcases hq with hq | hq
          · left
            rw [nodePairs, List.mem_append]
            exact Or.inl hq
          · right
            rw [List.map_singleton, List.mem_singleton] at hq
            rw [hq, hp]
        · rcases ih q hq with h | h
          · left
            rw [nodePairs, List.mem_append]
            exact Or.inr h
          · right; exact h
      · rw [if_neg (by simpa using hp)] at hq
        rw [nodePairs, List.mem_append] at hq
        rcases hq with hq | hq
        · left
          rw [nodePairs, List.mem_append]
          exact Or.inl hq
        · rcases ih q hq with h | h
          · left
            rw [nodePairs, List.mem_append]
            exact Or.inr h
          · right; exact h

theorem nodePairs_groupInsert (acc : List (String × List CallOut)) (n : String)
    (c : CallOut) :
    ∀ q ∈ nodePairs (groupInsert acc n c), q ∈ nodePairs acc ∨ q = (n, c) := by
  intro q hq
  rw [groupInsert] at hq
  by_cases hany : acc.any (fun p => p.1 == n) = true
  · rw [if_pos hany] at hq
    exact nodePairs_groupUpd acc n c q hq
  · rw [if_neg hany, nodePairs_append] at hq
    rw [List.mem_append] at hq
    rcases hq with hq | hq
    · exact Or.inl hq
    · right
      simpa [nodePairs] using hq

theorem nodePairs_buildNodes (steps : List StepRow) :
    ∀ acc ns, buildNodes acc steps = some ns →
      ∀ q ∈ nodePairs ns,
        q ∈ nodePairs acc ∨
          ∃ s ∈ steps, parseStep s = some q.2 ∧ s.nodeName = q.1 := by
  induction steps with
  | nil =>
      intro acc ns h q hq
      rw [buildNodes] at h
      cases h
      exact Or.inl hq
  | cons s steps ih =>
      intro acc ns h q hq
      rw [buildNodes] at h
      cases hp : parseStep s with
      | none => rw [hp] at h; cases h
      | some c =>
          rw [hp] at h
          rcases ih _ _ h q hq with hmem | ⟨s', hs', hps', hn'⟩
          · rcases nodePairs_groupInsert acc s.nodeName c q hmem with h2 | h2
            · exact Or.inl h2
            · right
              exact ⟨s, by simp, by rw [h2]; exact hp, by rw [h2]⟩
          · right
            exact ⟨s', by simp [hs'], hps', hn'⟩

/-! ### The keys of the grouped result -/

theorem keys_groupInsert (acc : List (String × List CallOut)) (n : String)
    (c : CallOut) (k : String) :
    k ∈ (groupInsert acc n c).map Prod.fst ↔
      k ∈ acc.map Prod.fst ∨ k = n := by
  rw [groupInsert]
  by_cases hany : acc.any (fun p => p.1 == n) = true
  · rw [if_pos hany]
    have hkeys : (acc.map (fun p => if p.1 == n then (p.1, p.2 ++ [c]) else p)).map
        Prod.fst = acc.map Prod.fst := by
      rw [List.map_map]
      apply List.map_congr_left
      intro p _
      by_cases hp : p.1 = n
      · simp [hp]
      · simp [hp]
    rw [hkeys]
    constructor
    · exact Or.inl
    · intro h
      rcases h with h | h
      · exact h
      · rw [List.any_eq_true] at hany
        obtain ⟨p, hp, hpn⟩ := hany
        rw [h]
        have : p.1 = n := by simpa using hpn
        exact this ▸ List.mem_map_of_mem Prod.fst hp
  · rw [if_neg hany]
    simp

theorem keys_buildNodes (steps : List StepRow) :
    ∀ acc ns, buildNodes acc steps = some ns →
      ∀ k, k ∈ ns.map Prod.fst ↔
        k ∈ acc.map Prod.fst ∨ k ∈ steps.map StepRow.nodeName := by
  induction steps with
  | nil =>
      intro acc ns h k
      rw [buildNodes] at h
      cases h
      simp
  | cons s steps ih =>
      intro acc ns h k
      rw [buildNodes] at h
      cases hp : parseStep s with
      | none => rw [hp] at h; cases h
      | some c =>
          rw [hp] at h
          rw [ih _ _ h k, keys_groupInsert]
          simp only [List.map_cons, List.mem_cons]
          tauto

/-! ### Inverting a successful load -/

theorem graphLoadGET_ok_inv (db : DB) (g : String)
    (ns : List (String × List CallOut)) (es : List EdgeOut)
    (h : graphLoadGET db (some g) = .ok ns es) :
    buildNodes [] (db.stepFindMany g) = some ns ∧
      es = (db.edgeFindMany g).map edgeProj := by
  rw [graphLoadGET] at h
  by_cases hg : g = ""
  · rw [if_pos hg] at h
    cases h
  · rw [if_neg hg] at h
    cases hb : buildNodes [] (db.stepFindMany g) with
    | none => rw [hb] at h; cases h
    | some ns0 =>
        rw [hb] at h
        cases h
        exact ⟨rfl, rfl⟩

/-! ### Assorted helper lemmas for the claims -/

/-- Ingest never touches the Graph table. -/
theorem graphExists_after_ingest (db : DB) (g : String)
    (nodes : List (String × List CallIn)) (es : List EdgeIn)
    (hg : g ≠ "") (hex : db.graphExists g = true) (g' : String) :
    (graphIngestPOST db ⟨some g, some nodes, some es⟩).1.graphExists g' =
      db.graphExists g' := by
  rw [graphIngestPOST_eq db g nodes es hg hex]
  rfl

theorem mkStepRows_mem (g n : String) (cs : List CallIn) :
    ∀ i, ∀ s ∈ mkStepRows g n i cs,
      s.nodeName = n ∧ ∃ c ∈ cs, parseStep s = some (projCall c) := by
  induction cs with
  | nil => intro i s hs; simp [mkStepRows] at hs
  | cons c cs ih =>
      intro i s hs
      rw [mkStepRows, List.mem_cons] at hs
      rcases hs with hs | hs
      · subst hs
        exact ⟨rfl, c, by simp, parseStep_mkStepRow g n i c⟩
      · obtain ⟨h1, c', hc', h2⟩ := ih _ s hs
        exact ⟨h1, c', by simp [hc'], h2⟩

theorem mkAllStepRows_mem (g : String) (nodes : List (String × List CallIn)) :
    ∀ i, ∀ s ∈ mkAllStepRows g i nodes,
      ∃ p ∈ nodes, s.nodeName = p.1 ∧ ∃ c ∈ p.2, parseStep s = some (projCall c) := by
  induction nodes with
  | nil => intro i s hs; simp [mkAllStepRows] at hs
  | cons p rest ih =>
      intro i s hs
      obtain ⟨n, cs⟩ := p
      rw [mkAllStepRows, List.mem_append] at hs
      rcases hs with hs | hs
      · obtain ⟨h1, c, hc, h2⟩ := mkStepRows_mem g n cs i s hs
        exact ⟨(n, cs), by simp, h1, c, hc, h2⟩
      · obtain ⟨p', hp', h1, c, hc, h2⟩ := ih _ s hs
        exact ⟨p', by simp [hp'], h1, c, hc, h2⟩

/-- One unparseable stored payload makes the whole grouping loop fail. -/
theorem buildNodes_fail (steps : List StepRow) :
    ∀ acc s, s ∈ steps → parseStep s = none → buildNodes acc steps = none := by
  induction steps with
  | nil => intro acc s hs _; simp at hs
  | cons t rest ih =>
      intro acc s hs hp
      rw [List.mem_cons] at hs
      rw [buildNodes]
      rcases hs with hs | hs
      · subst hs
        rw [hp]
      · cases hpt : parseStep t with
        | none => rfl
        | some c => exact ih _ s hs hp

theorem parseStep_none_of_input (s : StepRow)
    (h : jsParseOrEmpty s.inputJson = none) : parseStep s = none := by
  rw [parseStep, h]

/-- The id-independent content of a Step row. -/
def stepData (s : StepRow) : String × String × Int × String × String :=
  (s.graphId, s.nodeName, s.stepIndex, s.inputJson, s.outputJson)

/-- The id-independent content of an Edge row. -/
def edgeData (e : EdgeRow) : String × String × String × Option String × Option Int :=
  (e.graphId, e.sourceNode, e.targetNode, e.conditionKey, e.usedCount)

/-- The id-independent Step rows an ingest of this nodes object creates. -/
def stepDataOf (g : String) : List (String × List CallIn) →
    List (String × String × Int × String × String)
  | [] => []
  | (n, cs) :: rest =>
      cs.map (fun c => (g, n, c.stepIndex,
        Json.stringify (jsOrEmptyObj c.input),
        Json.stringify (jsOrEmptyObj c.output))) ++ stepDataOf g rest

theorem mkStepRows_map_stepData (g n : String) (cs : List CallIn) :
    ∀ i, (mkStepRows g n i cs).map stepData =
      cs.map (fun c => (g, n, c.stepIndex,
        Json.stringify (jsOrEmptyObj c.input),
        Json.stringify (jsOrEmptyObj c.output))) := by
  induction cs with
  | nil => intro i; rfl
  | cons c cs ih => intro i; simp [mkStepRows, stepData, ih]

theorem mkAllStepRows_map_stepData (g : String) (nodes : List (String × List CallIn)) :
    ∀ i, (mkAllStepRows g i nodes).map stepData = stepDataOf g nodes := by
  induction nodes with
  | nil => intro i; rfl
  | cons p rest ih =>
      intro i
      obtain ⟨n, cs⟩ := p
      rw [mkAllStepRows, List.map_append, mkStepRows_map_stepData, ih, stepDataOf]

theorem mkEdgeRows_map_edgeData (g : String) (es : List EdgeIn) :
    ∀ i, (mkEdgeRows g i es).map edgeData =
      es.map (fun e => (g, e.source, e.target, e.conditionKey,
        some (jsOrInt e.used_count))) := by
  induction es with
  | nil => intro i; rfl
  | cons e es ih => intro i; simp [mkEdgeRows, mkEdgeRow, edgeData, ih]

/-! ### The claims -/

/-- Claim C1 (as stated, refuted): ingest-then-load is NOT guaranteed to
return each node's call list sorted by stepIndex ascending.  Concretely:
a graph "g" exists, the ingest submits node "a" with calls at stepIndex 1
then stepIndex 0, and the immediate load returns the calls in submitted
order `[1, 0]`, which is not ascending since `1 ≤ 0` is false. -/
theorem C1_counterexample :
    graphLoadGET
        (graphIngestPOST ⟨[⟨"g", "G", 0⟩], [], [], 0, 0, 0, 0⟩
          ⟨some "g", some [("a", [⟨1, none, none⟩, ⟨0, none, none⟩])], some []⟩).1
        (some "g") =
      .ok [("a", [⟨1, Json.obj [], Json.obj []⟩, ⟨0, Json.obj [], Json.obj []⟩])] [] ∧
    ¬ ((1 : Int) ≤ 0) :=
  ⟨rfl, by decide⟩

/-- Claim C1 (amended): for every valid payload — graph existing, graphId
non-empty, node keys pairwise distinct, every call list non-empty —
ingest acknowledges ok, and an immediate load returns a nodes mapping
with exactly the submitted keys in submitted order, each call list IN THE
SUBMITTED ORDER (sorted by stepIndex only if the submission was), and
each call's input/output equal to the submitted payload after the
serialize/deserialize round-trip (absent/falsy payloads becoming the
empty object). -/
theorem C1_amended (db : DB) (g : String)
    (nodes : List (String × List CallIn)) (es : List EdgeIn)
    (hg : g ≠ "") (hex : db.graphExists g = true)
    (hnodup : (nodes.map Prod.fst).Nodup) (hne : ∀ p ∈ nodes, p.2 ≠ []) :
    (graphIngestPOST db ⟨some g, some nodes, some es⟩).2 = .ok ∧
    graphLoadGET (graphIngestPOST db ⟨some g, some nodes, some es⟩).1 (some g) =
      .ok (nodes.map (fun p => (p.1, p.2.map projCall))) (es.map expectedEdge) := by
  refine ⟨graphIngestPOST_ok db g nodes es hg hex, ?_⟩
  rw [graphLoadGET_after_ingest db g nodes es hg hex,
    foldNodes_clean nodes [] hne hnodup (by simp)]
  simp

/-- Witness for C1 (amended) at a concrete input. -/
theorem C1_witness :
    (graphIngestPOST ⟨[⟨"g", "G", 0⟩], [], [], 0, 0, 0, 0⟩
        ⟨some "g", some [("a", [⟨0, none, none⟩])], some []⟩).2 = .ok ∧
    graphLoadGET
        (graphIngestPOST ⟨[⟨"g", "G", 0⟩], [], [], 0, 0, 0, 0⟩
          ⟨some "g", some [("a", [⟨0, none, none⟩])], some []⟩).1
        (some "g") =
      .ok [("a", [⟨0, Json.obj [], Json.obj []⟩])] [] := by
  have h := C1_amended ⟨[⟨"g", "G", 0⟩], [], [], 0, 0, 0, 0⟩ "g"
    [("a", [⟨0, none, none⟩])] [] (by decide) rfl (by simp) (by simp)
  exact h

/-- Claim C2: after two successive ingests for the same graphId, the load
result is exactly determined by the second snapshot: every node key,
every (nodeName, call) pair, and every edge entry of the response comes
from the second snapshot (the first is fully superseded). -/
theorem C2_supersede (db : DB) (g : String)
    (nodes1 : List (String × List CallIn)) (es1 : List EdgeIn)
    (nodes2 : List (String × List CallIn)) (es2 : List EdgeIn)
    (hg : g ≠ "") (hex : db.graphExists g = true) :
    ∃ ns es,
      graphLoadGET
          (graphIngestPOST (graphIngestPOST db ⟨some g, some nodes1, some es1⟩).1
            ⟨some g, some nodes2, some es2⟩).1 (some g) = .ok ns es ∧
      (∀ k ∈ ns.map Prod.fst, k ∈ nodes2.map Prod.fst) ∧
      (∀ q ∈ nodePairs ns, ∃ p ∈ nodes2, ∃ c ∈ p.2, q = (p.1, projCall c)) ∧
      (∀ e ∈ es, ∃ e2 ∈ es2, e = expectedEdge e2) := by
  have hex1 : (graphIngestPOST db ⟨some g, some nodes1, some es1⟩).1.graphExists g = true := by
    rw [graphExists_after_ingest db g nodes1 es1 hg hex g]
    exact hex
  set db1 := (graphIngestPOST db ⟨some g, some nodes1, some es1⟩).1 with hdb1
  have hload := graphLoadGET_after_ingest db1 g nodes2 es2 hg hex1
  have hb := buildNodes_mkAllStepRows g nodes2 [] db1.nextStepId
  refine ⟨foldNodes [] nodes2, es2.map expectedEdge, hload, ?_, ?_, ?_⟩
  · intro k hk
    rcases (keys_buildNodes _ [] _ hb k).mp hk with h | h
    · simp at h
    · rw [List.mem_map] at h
      obtain ⟨s, hs, hsk⟩ := h
      obtain ⟨p, hp, hname, -⟩ := mkAllStepRows_mem g nodes2 db1.nextStepId s hs
      rw [← hsk, hname]
      exact List.mem_map_of_mem Prod.fst hp
  · intro q hq
    rcases nodePairs_buildNodes _ [] _ hb q hq with h | ⟨s, hs, hps, hn⟩
    · simp [nodePairs] at h
    · obtain ⟨p, hp, hname, c, hc, hparse⟩ := mkAllStepRows_mem g nodes2 db1.nextStepId s hs
      refine ⟨p, hp, c, hc, ?_⟩
      have hq2 : q.2 = projCall c := by
        rw [hps] at hparse
        exact (Option.some.injEq _ _).mp hparse
      have hq1 : q.1 = p.1 := by rw [← hn, hname]
      rw [← hq1, ← hq2]
  · intro e he
    rw [List.mem_map] at he
    obtain ⟨e2, he2, hee⟩ := he
    exact ⟨e2, he2, hee.symm⟩

/-- Witness for C2 at a concrete input: S1 = node "old", S2 = node "new". -/
theorem C2_witness :
    ∃ ns es,
      graphLoadGET
          (graphIngestPOST
            (graphIngestPOST ⟨[⟨"g", "G", 0⟩], [], [], 0, 0, 0, 0⟩
              ⟨some "g", some [("old", [⟨0, none, none⟩])],
               some [⟨"old", "x", none, none⟩]⟩).1
            ⟨some "g", some [("new", [⟨1, none, none⟩])],
             some [⟨"new", "y", none, some 2⟩]⟩).1 (some "g") = .ok ns es ∧
      (∀ k ∈ ns.map Prod.fst,
        k ∈ ([("new", [(⟨1, none, none⟩ : CallIn)])].map Prod.fst)) ∧
      (∀ q ∈ nodePairs ns, ∃ p ∈ [("new", [(⟨1, none, none⟩ : CallIn)])],
        ∃ c ∈ p.2, q = (p.1, projCall c)) ∧
      (∀ e ∈ es, ∃ e2 ∈ [(⟨"new", "y", none, some 2⟩ : EdgeIn)],
        e = expectedEdge e2) :=
  C2_supersede ⟨[⟨"g", "G", 0⟩], [], [], 0, 0, 0, 0⟩ "g"
    [("old", [⟨0, none, none⟩])] [⟨"old", "x", none, none⟩]
    [("new", [⟨1, none, none⟩])] [⟨"new", "y", none, some 2⟩]
    (by decide) rfl

/-- Claim C3 (as stated, refuted): a malformed (non-empty, unparseable)
stored payload does NOT make Load substitute an empty object and
succeed — the thrown parse error is caught and answered as a 500.
Concretely: one Step row for graph "g" stores the unparseable text "x",
and Load("g") returns the generic failure. -/
theorem C3_counterexample :
    graphLoadGET ⟨[⟨"g", "G", 0⟩], [⟨0, "g", "a", 0, "x", "x"⟩], [], 1, 0, 0, 0⟩
        (some "g") = .err 500 :=
  rfl

/-- Claim C3 (amended): absence (empty stored text) is deserialized to an
empty object, but a malformed non-empty stored payload makes Load fail
with the generic 500 response instead of substituting an empty object. -/
theorem C3_amended :
    (∀ s : StepRow, s.inputJson = "" → s.outputJson = "" →
        parseStep s = some ⟨s.stepIndex, Json.obj [], Json.obj []⟩) ∧
    (∀ (db : DB) (g : String) (s : StepRow), g ≠ "" → s ∈ db.steps →
        s.graphId = g → jsParseOrEmpty s.inputJson = none →
        graphLoadGET db (some g) = .err 500) := by
  constructor
  · intro s h1 h2
    rw [parseStep, h1, h2, jsParseOrEmpty_empty]
  · intro db g s hg hmem hgid hbad
    have hsf : s ∈ db.stepFindMany g := by
      rw [DB.stepFindMany, List.mem_filter]
      exact ⟨hmem, by simp [hgid]⟩
    have hfail := buildNodes_fail (db.stepFindMany g) [] s hsf
      (parseStep_none_of_input s hbad)
    show (if g = "" then LoadResp.err 400 else
      match buildNodes [] (db.stepFindMany g) with
      | some nodes => .ok nodes ((db.edgeFindMany g).map edgeProj)
      | none => .err 500) = .err 500
    rw [if_neg hg, hfail]

/-- Witness for C3 (amended) at concrete inputs: an all-empty-text row
parses to empty objects, and a store holding the malformed text "x"
makes Load("g") answer 500. -/
theorem C3_witness :
    parseStep ⟨0, "g", "a", 7, "", ""⟩ = some ⟨7, Json.obj [], Json.obj []⟩ ∧
    graphLoadGET ⟨[⟨"g", "G", 0⟩], [⟨0, "g", "a", 0, "x", ""⟩], [], 1, 0, 0, 0⟩
        (some "g") = .err 500 :=
  ⟨C3_amended.1 ⟨0, "g", "a", 7, "", ""⟩ rfl rfl,
   C3_amended.2 ⟨[⟨"g", "G", 0⟩], [⟨0, "g", "a", 0, "x", ""⟩], [], 1, 0, 0, 0⟩
     "g" ⟨0, "g", "a", 0, "x", ""⟩ (by decide) (by simp) rfl rfl⟩

/-- Claim C4 (as stated, refuted): CreateGraph with no caller-supplied
identifier does NOT fail — the handler performs no validation, the store
generates a default uuid, a Graph row IS persisted, and the handler
answers success with the generated id.  Concretely: on an empty store a
body without graphId yields `{graphId: "uuid-0"}` and one persisted row. -/
theorem C4_counterexample :
    graphStartPOST ⟨[], [], [], 0, 0, 0, 0⟩ ⟨none, none⟩ =
      (⟨[⟨"uuid-0", "Untitled", 0⟩], [], [], 0, 0, 1, 0⟩, .ok "uuid-0") :=
  rfl

/-- Claim C4 (amended): when the request body lacks graphId, the create
handler persists a Graph row whose id is the store-generated default
uuid (and whose name defaults through `name || "Untitled"`), and returns
success with that generated id — it does not fail, because the schema
declares `@default(uuid())` on Graph.id. -/
theorem C4_amended (db : DB) (name : Option String)
    (hfresh : ∀ r ∈ db.graphs, r.id ≠ db.genUuid) :
    graphStartPOST db ⟨none, name⟩ =
      ({ db with
           graphs := db.graphs ++ [⟨db.genUuid, jsOrString name "Untitled", db.now⟩],
           nextUuid := db.nextUuid + 1 }, .ok db.genUuid) := by
  have hany : db.graphs.any (fun r => r.id == db.genUuid) = false := by
    rw [List.any_eq_false]
    intro r hr
    simpa using hfresh r hr
  simp only [graphStartPOST, DB.graphCreate, hany, Bool.false_eq_true, if_false,
    Option.isNone_none, if_true]

/-- Witness for C4 (amended) at a concrete input. -/
theorem C4_witness :
    graphStartPOST ⟨[⟨"other", "O", 0⟩], [], [], 0, 0, 5, 0⟩ ⟨none, some "N"⟩ =
      (⟨[⟨"other", "O", 0⟩, ⟨"uuid-5", "N", 0⟩], [], [], 0, 0, 6, 0⟩, .ok "uuid-5") := by
  have h := C4_amended ⟨[⟨"other", "O", 0⟩], [], [], 0, 0, 5, 0⟩ (some "N")
    (by intro r hr; simp at hr; rw [hr]; decide)
  exact h

/-- Claim C5: re-sending the same snapshot is idempotent — the two loads
return identical results, and the second ingest leaves exactly the same
Step and Edge rows for the graph (modulo store-assigned surrogate ids)
as the first, i.e. no duplicates accumulate. -/
theorem C5_idempotent (db : DB) (g : String)
    (nodes : List (String × List CallIn)) (es : List EdgeIn)
    (hg : g ≠ "") (hex : db.graphExists g = true) :
    graphLoadGET (graphIngestPOST db ⟨some g, some nodes, some es⟩).1 (some g) =
      graphLoadGET (graphIngestPOST (graphIngestPOST db ⟨some g, some nodes, some es⟩).1
        ⟨some g, some nodes, some es⟩).1 (some g) ∧
    ((graphIngestPOST (graphIngestPOST db ⟨some g, some nodes, some es⟩).1
        ⟨some g, some nodes, some es⟩).1.stepFindMany g).map stepData =
      ((graphIngestPOST db ⟨some g, some nodes, some es⟩).1.stepFindMany g).map stepData ∧
    ((graphIngestPOST (graphIngestPOST db ⟨some g, some nodes, some es⟩).1
        ⟨some g, some nodes, some es⟩).1.edgeFindMany g).map edgeData =
      ((graphIngestPOST db ⟨some g, some nodes, some es⟩).1.edgeFindMany g).map edgeData := by
  have hex1 : (graphIngestPOST db ⟨some g, some nodes, some es⟩).1.graphExists g = true := by
    rw [graphExists_after_ingest db g nodes es hg hex]
    exact hex
  refine ⟨?_, ?_, ?_⟩
  · rw [graphLoadGET_after_ingest db g nodes es hg hex,
      graphLoadGET_after_ingest _ g nodes es hg hex1]
  · rw [stepFindMany_after_ingest _ g nodes es hg hex1,
      stepFindMany_after_ingest db g nodes es hg hex,
      mkAllStepRows_map_stepData, mkAllStepRows_map_stepData]
  · rw [edgeFindMany_after_ingest _ g nodes es hg hex1,
      edgeFindMany_after_ingest db g nodes es hg hex,
      mkEdgeRows_map_edgeData, mkEdgeRows_map_edgeData]

/-- Witness for C5 at a concrete input. -/
theorem C5_witness :
    graphLoadGET (graphIngestPOST ⟨[⟨"g", "G", 0⟩], [], [], 0, 0, 0, 0⟩
        ⟨some "g", some [("a", [⟨0, none, none⟩])], some [⟨"a", "b", none, some 1⟩]⟩).1
        (some "g") =
      graphLoadGET (graphIngestPOST
        (graphIngestPOST ⟨[⟨"g", "G", 0⟩], [], [], 0, 0, 0, 0⟩
          ⟨some "g", some [("a", [⟨0, none, none⟩])], some [⟨"a", "b", none, some 1⟩]⟩).1
        ⟨some "g", some [("a", [⟨0, none, none⟩])], some [⟨"a", "b", none, some 1⟩]⟩).1
        (some "g") ∧
    ((graphIngestPOST
        (graphIngestPOST ⟨[⟨"g", "G", 0⟩], [], [], 0, 0, 0, 0⟩
          ⟨some "g", some [("a", [⟨0, none, none⟩])], some [⟨"a", "b", none, some 1⟩]⟩).1
        ⟨some "g", some [("a", [⟨0, none, none⟩])], some [⟨"a", "b", none, some 1⟩]⟩).1.stepFindMany
          "g").map stepData =
      ((graphIngestPOST ⟨[⟨"g", "G", 0⟩], [], [], 0, 0, 0, 0⟩
        ⟨some "g", some [("a", [⟨0, none, none⟩])], some [⟨"a", "b", none, some 1⟩]⟩).1.stepFindMany
          "g").map stepData ∧
    ((graphIngestPOST
        (graphIngestPOST ⟨[⟨"g", "G", 0⟩], [], [], 0, 0, 0, 0⟩
          ⟨some "g", some [("a", [⟨0, none, none⟩])], some [⟨"a", "b", none, some 1⟩]⟩).1
        ⟨some "g", some [("a", [⟨0, none, none⟩])], some [⟨"a", "b", none, some 1⟩]⟩).1.edgeFindMany
          "g").map edgeData =
      ((graphIngestPOST ⟨[⟨"g", "G", 0⟩], [], [], 0, 0, 0, 0⟩
        ⟨some "g", some [("a", [⟨0, none, none⟩])], some [⟨"a", "b", none, some 1⟩]⟩).1.edgeFindMany
          "g").map edgeData :=
  C5_idempotent ⟨[⟨"g", "G", 0⟩], [], [], 0, 0, 0, 0⟩ "g"
    [("a", [⟨0, none, none⟩])] [⟨"a", "b", none, some 1⟩] (by decide) rfl

/-- Claim C6 (as stated, refuted): Load does NOT substitute 0 for a
stored null usedCount — it passes the null through.  Concretely: a store
holding one Edge row for "g" with `usedCount = null` loads to an edge
entry whose used_count is null, not 0. -/
theorem C6_counterexample :
    graphLoadGET ⟨[⟨"g", "G", 0⟩], [], [⟨0, "g", "a", "b", none, none⟩], 0, 1, 0, 0⟩
        (some "g") = .ok [] [⟨"a", "b", none, none⟩] ∧
    (none : Option Int) ≠ some 0 :=
  ⟨rfl, by decide⟩

/-- Claim C6 (amended): in every Load response, used_count is passed
through UNCHANGED from the stored usedCount (a stored null stays null);
the defaulting to 0 happens at ingestion time instead, where an absent
used_count is stored as 0 (so rows written by this backend are never
null). -/
theorem C6_amended :
    (∀ (db : DB) (g : String) ns es, graphLoadGET db (some g) = .ok ns es →
        es.map EdgeOut.used_count = (db.edgeFindMany g).map EdgeRow.usedCount) ∧
    (∀ (g : String) (id : Nat) (e : EdgeIn), e.used_count = none →
        (mkEdgeRow g id e).usedCount = some 0) := by
  constructor
  · intro db g ns es h
    obtain ⟨-, he⟩ := graphLoadGET_ok_inv db g ns es h
    rw [he, List.map_map]
    rfl
  · intro g id e h
    rw [mkEdgeRow]
    simp [jsOrInt, h]

/-- Witness for C6 (amended) at concrete inputs. -/
theorem C6_witness :
    ([⟨"a", "b", none, some 3⟩] : List EdgeOut).map EdgeOut.used_count =
      ((⟨[⟨"g", "G", 0⟩], [], [⟨0, "g", "a", "b", none, some 3⟩], 0, 1, 0, 0⟩ :
        DB).edgeFindMany "g").map EdgeRow.usedCount ∧
    (mkEdgeRow "g" 0 ⟨"a", "b", none, none⟩).usedCount = some 0 :=
  ⟨C6_amended.1 ⟨[⟨"g", "G", 0⟩], [], [⟨0, "g", "a", "b", none, some 3⟩], 0, 1, 0, 0⟩
      "g" [] [⟨"a", "b", none, some 3⟩] rfl,
   C6_amended.2 "g" 0 ⟨"a", "b", none, none⟩ rfl⟩

/-- Claim C7: an edge ingested without conditionKey loads to an edge
entry whose conditionKey field is ABSENT (EdgeOut.conditionKey = none
models omission of the field, per the `e.conditionKey || undefined`
projection), never present-with-null. -/
theorem C7_conditionKey_omitted (db : DB) (g : String)
    (nodes : List (String × List CallIn)) (es : List EdgeIn)
    (hg : g ≠ "") (hex : db.graphExists g = true) :
    graphLoadGET (graphIngestPOST db ⟨some g, some nodes, some es⟩).1 (some g) =
      .ok (foldNodes [] nodes) (es.map expectedEdge) ∧
    ∀ e ∈ es, e.conditionKey = none → (expectedEdge e).conditionKey = none := by
  refine ⟨graphLoadGET_after_ingest db g nodes es hg hex, ?_⟩
  intro e _ hck
  rw [expectedEdge]
  simp [jsOrUndefined, hck]

/-- Witness for C7 at a concrete input. -/
theorem C7_witness :
    graphLoadGET (graphIngestPOST ⟨[⟨"g", "G", 0⟩], [], [], 0, 0, 0, 0⟩
        ⟨some "g", some [], some [⟨"a", "b", none, some 1⟩]⟩).1 (some "g") =
      .ok (foldNodes [] []) ([⟨"a", "b", none, some 1⟩].map expectedEdge) ∧
    ∀ e ∈ ([⟨"a", "b", none, some 1⟩] : List EdgeIn), e.conditionKey = none →
      (expectedEdge e).conditionKey = none :=
  C7_conditionKey_omitted ⟨[⟨"g", "G", 0⟩], [], [], 0, 0, 0, 0⟩ "g"
    [] [⟨"a", "b", none, some 1⟩] (by decide) rfl

/-- Claim C8: loading a graphId with no Step rows and no Edge rows
succeeds with `{nodes: {}, edges: []}` — it is not an error. -/
theorem C8_empty_load (db : DB) (g : String) (hg : g ≠ "")
    (hs : db.stepFindMany g = []) (he : db.edgeFindMany g = []) :
    graphLoadGET db (some g) = .ok [] [] := by
  show (if g = "" then LoadResp.err 400 else
    match buildNodes [] (db.stepFindMany g) with
    | some nodes => .ok nodes ((db.edgeFindMany g).map edgeProj)
    | none => .err 500) = .ok [] []
  rw [if_neg hg, hs, he]
  rfl

/-- Witness for C8 at a concrete input: a store holding rows only for a
DIFFERENT graph still loads "g" as empty. -/
theorem C8_witness :
    graphLoadGET ⟨[⟨"g", "G", 0⟩, ⟨"h", "H", 0⟩],
        [⟨0, "h", "a", 0, "", ""⟩], [⟨0, "h", "a", "b", none, some 1⟩], 1, 1, 0, 0⟩
      (some "g") = .ok [] [] :=
  C8_empty_load ⟨[⟨"g", "G", 0⟩, ⟨"h", "H", 0⟩],
      [⟨0, "h", "a", 0, "", ""⟩], [⟨0, "h", "a", "b", none, some 1⟩], 1, 1, 0, 0⟩
    "g" (by decide) rfl rfl

/-- Claim C9: for every ingest body that has a graphId but lacks the
nodes field or the edges field (or both), the missing field is treated
as empty (`body.nodes || {}`, `body.edges || []`): the handler still
deletes every existing Step and Edge row for the graph, inserts rows
only for the fields that are present, and acknowledges ok.  When nodes
is absent the graph's Step table ends up holding nothing (only the
delete survivors of other graphs remain), likewise for an absent edges
field — so a body with only a graphId clears all stored state for that
graph. -/
theorem C9_missing_fields (db : DB) (g : String)
    (nodes? : Option (List (String × List CallIn))) (edges? : Option (List EdgeIn))
    (hg : g ≠ "") (hex : db.graphExists g = true)
    (habs : nodes? = none ∨ edges? = none) :
    graphIngestPOST db ⟨some g, nodes?, edges?⟩ =
      ({ db with
           steps := db.steps.filter (fun s => !(s.graphId == g)) ++
             mkAllStepRows g db.nextStepId (nodes?.getD []),
           edges := db.edges.filter (fun e => !(e.graphId == g)) ++
             mkEdgeRows g db.nextEdgeId (edges?.getD []),
           nextStepId := db.nextStepId + countCalls (nodes?.getD []),
           nextEdgeId := db.nextEdgeId + (edges?.getD []).length }, .ok) ∧
    (nodes? = none →
      (graphIngestPOST db ⟨some g, nodes?, edges?⟩).1.steps =
        db.steps.filter (fun s => !(s.graphId == g))) ∧
    (edges? = none →
      (graphIngestPOST db ⟨some g, nodes?, edges?⟩).1.edges =
        db.edges.filter (fun e => !(e.graphId == g))) := by
  have key : graphIngestPOST db ⟨some g, nodes?, edges?⟩ =
      graphIngestPOST db ⟨some g, some (nodes?.getD []), some (edges?.getD [])⟩ := rfl
  have main := graphIngestPOST_eq db g (nodes?.getD []) (edges?.getD []) hg hex
  refine ⟨key.trans main, ?_, ?_⟩
  · intro h
    rw [key, main]
    subst h
    simp [mkAllStepRows]
  · intro h
    rw [key, main]
    subst h
    simp [mkEdgeRows]

/-- Witness for C9 at a concrete input exercising the mixed case: nodes
present, edges field absent.  The graph's old Step row and its Edge row
are deleted, one Step row is inserted for the submitted node, NO edge
row is inserted, another graph's row survives, and the response is ok. -/
theorem C9_witness :
    graphIngestPOST ⟨[⟨"g", "G", 0⟩, ⟨"h", "H", 0⟩],
        [⟨0, "g", "old", 0, "", ""⟩, ⟨1, "h", "b", 0, "", ""⟩],
        [⟨0, "g", "old", "x", none, some 1⟩], 2, 1, 0, 0⟩
      ⟨some "g", some [("a", [⟨0, none, none⟩])], none⟩ =
      (⟨[⟨"g", "G", 0⟩, ⟨"h", "H", 0⟩],
        [⟨1, "h", "b", 0, "", ""⟩, ⟨2, "g", "a", 0, "\x7b\x7d", "\x7b\x7d"⟩],
        [], 3, 1, 0, 0⟩, .ok) ∧
    ((some [("a", [(⟨0, none, none⟩ : CallIn)])] :
        Option (List (String × List CallIn))) = none →
      (graphIngestPOST ⟨[⟨"g", "G", 0⟩, ⟨"h", "H", 0⟩],
          [⟨0, "g", "old", 0, "", ""⟩, ⟨1, "h", "b", 0, "", ""⟩],
          [⟨0, "g", "old", "x", none, some 1⟩], 2, 1, 0, 0⟩
        ⟨some "g", some [("a", [⟨0, none, none⟩])], none⟩).1.steps =
        [⟨1, "h", "b", 0, "", ""⟩]) ∧
    ((none : Option (List EdgeIn)) = none →
      (graphIngestPOST ⟨[⟨"g", "G", 0⟩, ⟨"h", "H", 0⟩],
          [⟨0, "g", "old", 0, "", ""⟩, ⟨1, "h", "b", 0, "", ""⟩],
          [⟨0, "g", "old", "x", none, some 1⟩], 2, 1, 0, 0⟩
        ⟨some "g", some [("a", [⟨0, none, none⟩])], none⟩).1.edges = []) := by
  have h := C9_missing_fields ⟨[⟨"g", "G", 0⟩, ⟨"h", "H", 0⟩],
      [⟨0, "g", "old", 0, "", ""⟩, ⟨1, "h", "b", 0, "", ""⟩],
      [⟨0, "g", "old", "x", none, some 1⟩], 2, 1, 0, 0⟩ "g"
    (some [("a", [⟨0, none, none⟩])]) none (by decide) rfl (Or.inr rfl)
  exact h

/-- Claim C10: the keys of a successful load's nodes mapping are exactly
the distinct nodeName values of the graph's Step rows; any name (e.g. an
edge endpoint) with no Step row is not a key, even though the edges list
is still the full projection of the graph's Edge rows. -/
theorem C10_keys (db : DB) (g : String) (ns : List (String × List CallOut))
    (es : List EdgeOut) (h : graphLoadGET db (some g) = .ok ns es) :
    (∀ k, k ∈ ns.map Prod.fst ↔ k ∈ (db.stepFindMany g).map StepRow.nodeName) ∧
    (∀ x, x ∉ (db.stepFindMany g).map StepRow.nodeName → x ∉ ns.map Prod.fst) ∧
    es = (db.edgeFindMany g).map edgeProj := by
  obtain ⟨hb, he⟩ := graphLoadGET_ok_inv db g ns es h
  have hkeys : ∀ k, k ∈ ns.map Prod.fst ↔
      k ∈ (db.stepFindMany g).map StepRow.nodeName := by
    intro k
    rw [keys_buildNodes _ [] _ hb k]
    simp
  exact ⟨hkeys, fun x hx hmem => hx ((hkeys x).mp hmem), he⟩

/-- Witness for C10 at a concrete input: graph "g" has one Step row for
node "a" and an Edge row "a" → "b"; the load's only key is "a", "b" is
not a key, yet the edge is returned. -/
theorem C10_witness :
    (∀ k, k ∈ ([("a", [⟨0, Json.obj [], Json.obj []⟩])] :
        List (String × List CallOut)).map Prod.fst ↔
      k ∈ ((⟨[⟨"g", "G", 0⟩], [⟨0, "g", "a", 0, "", ""⟩],
        [⟨0, "g", "a", "b", none, some 1⟩], 1, 1, 0, 0⟩ :
          DB).stepFindMany "g").map StepRow.nodeName) ∧
    (∀ x, x ∉ ((⟨[⟨"g", "G", 0⟩], [⟨0, "g", "a", 0, "", ""⟩],
        [⟨0, "g", "a", "b", none, some 1⟩], 1, 1, 0, 0⟩ :
          DB).stepFindMany "g").map StepRow.nodeName →
      x ∉ ([("a", [⟨0, Json.obj [], Json.obj []⟩])] :
        List (String × List CallOut)).map Prod.fst) ∧
    ([⟨"a", "b", none, some 1⟩] : List EdgeOut) =
      ((⟨[⟨"g", "G", 0⟩], [⟨0, "g", "a", 0, "", ""⟩],
        [⟨0, "g", "a", "b", none, some 1⟩], 1, 1, 0, 0⟩ :
          DB).edgeFindMany "g").map edgeProj :=
  C10_keys ⟨[⟨"g", "G", 0⟩], [⟨0, "g", "a", 0, "", ""⟩],
      [⟨0, "g", "a", "b", none, some 1⟩], 1, 1, 0, 0⟩ "g"
    [("a", [⟨0, Json.obj [], Json.obj []⟩])] [⟨"a", "b", none, some 1⟩] rfl
